import Mathlib

/-!
Verification of the hyperscanning repository's core algorithms.

Shallow embedding, over ℚ, of:
* `src/hyper/annotations/palign_core.py` — IPU segment building from token
  intervals (run detection, silence-gap merging, tier rendering);
* `src/hyper/preprocessing/metadata.py` — windowed nearest-neighbour
  alignment of two IPU tables, timestamp→sample event conversion, column
  validation error messages, and partner-id inference from filenames.

Python floats are modelled by ℚ (the claims are about order comparisons and
exact arithmetic on small decimal values, where IEEE doubles and ℚ agree);
NaN-valued output cells are modelled by `Option ℚ` (`none` = NaN); raising
`ValueError`/`RuntimeError` is modelled by `Option`/`Except` results.
-/

namespace Hyper

-- ==============================================================================================
-- palign_core.py : types and token classification
-- ==============================================================================================

/-- `Interval` dataclass from `palign_core.py`: a labelled time span. -/
structure Interval where
  start : ℚ
  «end» : ℚ
  text : String
deriving DecidableEq

/-- `SILENCE_LABEL` constant. -/
def SILENCE_LABEL : String := "#"

/-- `IPU_LABEL` constant. -/
def IPU_LABEL : String := "IPU"

/-- Python `str.strip()` with no argument: remove leading and trailing
whitespace from the character list. -/
def trimChars (cs : List Char) : List Char :=
  ((cs.dropWhile Char.isWhitespace).reverse.dropWhile Char.isWhitespace).reverse

/-- Python `str.lower()` on the (ASCII) token labels. -/
def lowerChars (cs : List Char) : List Char := cs.map Char.toLower

/-- `_is_token_in_ipu` from `palign_core.py`: decide whether a token label
counts as speech, mirroring the Python rule order exactly
(`t = token.strip()`, then the cascade of equality tests). -/
def is_token_in_ipu (token : String) (include_laughter include_noise
    include_filled_pause : Bool) : Bool :=
  let t := trimChars token.data
  if t = [] then false
  else if t = ['#'] then false
  else if t = ['@'] then include_laughter
  else if t = ['*'] then include_noise
  else if lowerChars t = ['f', 'p'] then include_filled_pause
  else true

-- ==============================================================================================
-- palign_core.py : build_ipu_segments_from_tokens
-- ==============================================================================================

/-- One step of the first pass of `build_ipu_segments_from_tokens`: the loop
body over token intervals, carrying the closed-runs list and the optional
open run `(current_start, current_end)`. -/
def rawStep (il inz ifp : Bool)
    (acc : List (ℚ × ℚ) × Option (ℚ × ℚ)) (itv : Interval) :
    List (ℚ × ℚ) × Option (ℚ × ℚ) :=
  if is_token_in_ipu itv.text il inz ifp then
    match acc.2 with
    | none => (acc.1, some (itv.start, itv.«end»))
    | some c => (acc.1, some (c.1, max c.2 itv.«end»))
  else
    match acc.2 with
    | none => (acc.1, none)
    | some c => (acc.1 ++ [c], none)

/-- First pass of `build_ipu_segments_from_tokens`: contiguous in-IPU runs,
flushing a trailing open run. -/
def buildRawSegments (il inz ifp : Bool) (tokens : List Interval) :
    List (ℚ × ℚ) :=
  let st := tokens.foldl (rawStep il inz ifp) ([], none)
  match st.2 with
  | none => st.1
  | some c => st.1 ++ [c]

/-- The merge loop of `build_ipu_segments_from_tokens`, with `cur` playing the
role of `merged[-1]`: a following segment whose gap `start - cur.2` is
strictly below the threshold is absorbed into `cur`. -/
def mergeAux (minSil : ℚ) (cur : ℚ × ℚ) : List (ℚ × ℚ) → List (ℚ × ℚ)
  | [] => [cur]
  | p :: rest =>
    if p.1 - cur.2 < minSil then mergeAux minSil (cur.1, max cur.2 p.2) rest
    else cur :: mergeAux minSil p rest

/-- Second pass of `build_ipu_segments_from_tokens`: merge segments separated
by a gap `< min_silence_s`. -/
def mergeSegments (minSil : ℚ) : List (ℚ × ℚ) → List (ℚ × ℚ)
  | [] => []
  | c :: rest => mergeAux minSil c rest

/-- `build_ipu_segments_from_tokens` from `palign_core.py`.  `none` models the
`ValueError` raised for a negative `min_silence_s`. -/
def build_ipu_segments_from_tokens (tokens : List Interval)
    (include_laughter include_noise include_filled_pause : Bool)
    (min_silence_s : ℚ) : Option (List (ℚ × ℚ)) :=
  if min_silence_s < 0 then none
  else some (mergeSegments min_silence_s
    (buildRawSegments include_laughter include_noise include_filled_pause tokens))

-- ==============================================================================================
-- palign_core.py : apply_min_ipu_and_render_full_tier
-- ==============================================================================================

/-- The per-segment filter/clamp of `apply_min_ipu_and_render_full_tier`:
drop malformed (`e ≤ s`) and too-short segments, clamp survivors into
`[t_start, t_end]`. -/
def clampSeg (t_start t_end min_ipu_s : ℚ) (p : ℚ × ℚ) : Option (ℚ × ℚ) :=
  if p.2 ≤ p.1 then none
  else if min_ipu_s ≤ p.2 - p.1 then some (max t_start p.1, min t_end p.2)
  else none

/-- Loop body of the rendering walk in `apply_min_ipu_and_render_full_tier`:
`acc = (out, cursor)`. -/
def renderStep (ipu_label silence_label : String)
    (acc : List Interval × ℚ) (p : ℚ × ℚ) : List Interval × ℚ :=
  let out := if acc.2 < p.1
    then acc.1 ++ [⟨acc.2, p.1, silence_label⟩] else acc.1
  (out ++ [⟨p.1, p.2, ipu_label⟩], p.2)

/-- `apply_min_ipu_and_render_full_tier` from `palign_core.py`.  `none`
models the `ValueError` raised for `t_end < t_start` or `min_ipu_s < 0`. -/
def apply_min_ipu_and_render_full_tier (t_start t_end : ℚ)
    (ipu_segments : List (ℚ × ℚ)) (min_ipu_s : ℚ)
    (ipu_label silence_label : String) : Option (List Interval) :=
  if t_end < t_start then none
  else if min_ipu_s < 0 then none
  else
    let kept0 := ipu_segments.filterMap (clampSeg t_start t_end min_ipu_s)
    let kept := kept0.filter (fun p => p.1 < p.2)
    let st := kept.foldl (renderStep ipu_label silence_label) ([], t_start)
    let out := if st.2 < t_end
      then st.1 ++ [⟨st.2, t_end, silence_label⟩] else st.1
    some (out.filter (fun itv => itv.start < itv.«end»))

-- ==============================================================================================
-- metadata.py : rows, window matching, nearest-neighbour selection
-- ==============================================================================================

/-- One row of a cleaned IPU table (`start`, `end`, `annotation` plus the
`COLUMN_LIST` features `duration`, `n_syllables`, `rate`). -/
structure IpuRow where
  start : ℚ
  «end» : ℚ
  annotation : String
  duration : ℚ
  n_syllables : ℚ
  rate : ℚ
deriving DecidableEq

/-- `TimeLock` literal type from `metadata.py`. -/
inductive TimeLock where
  | onset
  | offset
deriving DecidableEq

/-- `origin_col` dispatch in `_combine_annotations`:
`"start" if time_lock == "onset" else "end"`, read off the anchor row. -/
def originCol : TimeLock → IpuRow → ℚ
  | .onset, r => r.start
  | .offset, r => r.«end»

/-- `target_col` dispatch in `_combine_annotations`:
`"end" if time_lock == "onset" else "start"`, read off a partner row. -/
def targetCol : TimeLock → IpuRow → ℚ
  | .onset, r => r.«end»
  | .offset, r => r.start

/-- The boolean mask of `_find_adjacent` (metadata.py line 105):
`(origin_t - margin_s <= target) & (target < origin_t + margin_s)`. -/
def inWindow (origin_t margin_s t : ℚ) : Bool :=
  decide (origin_t - margin_s ≤ t) && decide (t < origin_t + margin_s)

/-- The candidate set `match` computed by `_find_adjacent`: partner rows whose
target time passes the window mask, in partner-table row order. -/
def match_candidates (time_lock : TimeLock) (margin_s : ℚ) (row : IpuRow)
    (ref : List IpuRow) : List IpuRow :=
  ref.filter (fun r => inWindow (originCol time_lock row) margin_s
    (targetCol time_lock r))

/-- `Series.idxmin` as used by `_find_adjacent`: the first element attaining
the minimum of `f`, `none` on an empty list.  The fold keeps the incumbent
unless a strictly smaller value appears, which is pandas' first-occurrence
tie-break. -/
def idxmin (f : α → ℚ) : List α → Option α
  | [] => none
  | x :: xs => some (xs.foldl (fun best y => if f y < f best then y else best) x)

/-- The four output cells `_find_adjacent` appends to an anchor row: the
partner-prefixed feature columns and `latency`.  `none` models NaN. -/
structure MatchResult where
  p_duration : Option ℚ
  p_n_syllables : Option ℚ
  p_rate : Option ℚ
  latency : Option ℚ
deriving DecidableEq

/-- `_find_adjacent` from `metadata.py`: filter partner rows to the window,
pick the first row minimising `|origin - target|`, and emit its features and
the signed latency `origin - target`; all-NaN when no candidate exists. -/
def find_adjacent (time_lock : TimeLock) (margin_s : ℚ) (row : IpuRow)
    (ref : List IpuRow) : MatchResult :=
  let origin_t := originCol time_lock row
  match idxmin (fun r => |origin_t - targetCol time_lock r|)
      (match_candidates time_lock margin_s row ref) with
  | none => ⟨none, none, none, none⟩
  | some best => ⟨some best.duration, some best.n_syllables, some best.rate,
      some (origin_t - targetCol time_lock best)⟩

/-- `_combine_annotations` core: apply `_find_adjacent` to every anchor row,
keeping every anchor row and pairing it with its partner-derived cells. -/
def combine_annotations (time_lock : TimeLock) (margin_s : ℚ)
    (base ref : List IpuRow) : List (IpuRow × MatchResult) :=
  base.map (fun row => (row, find_adjacent time_lock margin_s row ref))

-- ==============================================================================================
-- metadata.py : column validation and error messages
-- ==============================================================================================

/-- `sorted({"start", "end", "annotation", "duration", "n_syllables",
"rate"})`: the required columns of `_clean_and_prefix_ipu` in the sorted
order Python produces for the missing-column list. -/
def requiredColsSorted : List String :=
  ["annotation", "duration", "end", "n_syllables", "rate", "start"]

/-- Python `repr` of a list of strings, as interpolated into f-strings:
the comma-separated single-quoted items. -/
def renderItems : List String → String
  | [] => ""
  | [x] => "'" ++ x ++ "'"
  | x :: rest => "'" ++ x ++ "', " ++ renderItems rest

/-- Python `repr` of a list of strings, with the surrounding brackets. -/
def renderStrList (xs : List String) : String :=
  "[" ++ renderItems xs ++ "]"

/-- `_clean_and_prefix_ipu` from `metadata.py`, at the schema level: the
table is a column list plus rows.  On missing required columns it raises
`ValueError(f"{speaker} IPU table missing required columns: {missing}")`;
otherwise it drops rows whose annotation is the placeholder `"#"` (the
feature-column renaming is a pure relabelling and is not modelled). -/
def clean_and_prefix_ipu (cols : List String) (rows : List IpuRow)
    (speaker : String) : Except String (List IpuRow) :=
  let missing := requiredColsSorted.filter (fun c => ¬ cols.contains c)
  if missing.isEmpty then
    Except.ok (rows.filter (fun r => IpuRow.annotation r ≠ "#"))
  else
    Except.error (speaker ++ " IPU table missing required columns: "
      ++ renderStrList missing)

-- ==============================================================================================
-- metadata.py : metadata_df_to_mne_events
-- ==============================================================================================

/-- `numpy.rint` on an exact rational: round to the nearest integer, ties to
the nearest even integer (IEEE round-half-even, numpy's documented rule). -/
def rqint (q : ℚ) : ℤ :=
  if q - ⌊q⌋ < 1 / 2 then ⌊q⌋
  else if 1 / 2 < q - ⌊q⌋ then ⌊q⌋ + 1
  else if ⌊q⌋ % 2 = 0 then ⌊q⌋ else ⌊q⌋ + 1

/-- `metadata_df_to_mne_events` from `metadata.py`.  The timestamp column is
modelled as `List (Option ℚ)`: `none` stands for an entry that
`pd.to_numeric(..., errors="coerce")` turns into NaN or that is non-finite,
which the `np.isfinite` mask removes.  The missing-column `ValueError`
message is reproduced verbatim. -/
def metadata_df_to_mne_events (cols : List String)
    (timestamps : List (Option ℚ)) (sfreq_hz : ℚ) (first_samp : ℤ)
    (timestamp_col : String) (event_id : ℤ) :
    Except String (List (ℤ × ℤ × ℤ)) :=
  if cols.contains timestamp_col then
    Except.ok ((timestamps.filterMap id).map
      (fun t => (rqint (t * sfreq_hz) + first_samp, 0, event_id)))
  else
    Except.error ("metadata_df must contain column '" ++ timestamp_col
      ++ "'. Found: " ++ renderStrList cols)

-- ==============================================================================================
-- metadata.py : partner-id inference (regex search modelled on Char lists)
-- ==============================================================================================

/-- Value of a digit string, as Python `int` on the captured group. -/
def digitsVal : List Char → ℕ
  | [] => 0
  | c :: rest => digitsVal rest + (c.toNat - '0'.toNat) * 10 ^ rest.length

/-- Try to match `run-(\d+)` at the head of the character list, returning the
greedily captured digit group. -/
def matchRunAt : List Char → Option (List Char)
  | c1 :: c2 :: c3 :: c4 :: rest =>
    if c1 = 'r' ∧ c2 = 'u' ∧ c3 = 'n' ∧ c4 = '-' then
      if (rest.takeWhile Char.isDigit).isEmpty then none
      else some (rest.takeWhile Char.isDigit)
    else none
  | _ => none

/-- The greedy `.*run-(\d+)` tail of the pattern: the capture at the last
position where `run-` followed by a digit matches, unreachable past a
newline (`.` does not cross `\n`). -/
def lastRunMatch : List Char → Option (List Char)
  | [] => none
  | c :: rest =>
    if c = '\n' then none
    else
      match lastRunMatch rest with
      | some ds => some ds
      | none => matchRunAt (c :: rest)

/-- Try to match the whole default pattern `sub-(\d{3}).*run-(\d+)` starting
at the head of the character list, returning both captured groups. -/
def matchSubAt : List Char → Option (List Char × List Char)
  | c1 :: c2 :: c3 :: c4 :: d1 :: d2 :: d3 :: rest =>
    if c1 = 's' ∧ c2 = 'u' ∧ c3 = 'b' ∧ c4 = '-' ∧ d1.isDigit ∧ d2.isDigit ∧ d3.isDigit then
      match lastRunMatch rest with
      | some ds => some ([d1, d2, d3], ds)
      | none => none
    else none
  | _ => none

/-- `re.search` of the default pattern: the match at the leftmost starting
position where the whole pattern matches. -/
def searchPattern : List Char → Option (List Char × List Char)
  | [] => none
  | c :: rest =>
    match matchSubAt (c :: rest) with
    | some r => some r
    | none => searchPattern rest

/-- Python `str.zfill(width)` on the character list of a rendered integer:
pad with leading zeros after an optional sign, never truncating. -/
def zfillChars (width : ℕ) : List Char → List Char
  | '-' :: rest => '-' :: (List.replicate (width - (rest.length + 1)) '0' ++ rest)
  | cs => List.replicate (width - cs.length) '0' ++ cs

/-- `infer_partner_id_and_run_from_ipu_path` from `metadata.py`, on the
filename stem with the default pattern: search the pattern, take the numeric
subject id, pair even ids with `id - 1` and odd ids with `id + 1`, and
zero-pad the partner id to 3 characters; the run capture passes through.
`Except.error` models the `RuntimeError` on a non-matching stem. -/
def infer_partner_id_and_run (stem : String) : Except String (String × String) :=
  match searchPattern stem.data with
  | none => Except.error
      ("IPU filename must match pattern 'sub-(\\d{3}).*run-(\\d+)', got stem='"
        ++ stem ++ "'")
  | some g =>
    let self_id : ℤ := (digitsVal g.1 : ℤ)
    let other_id : ℤ := if self_id % 2 = 0 then self_id - 1 else self_id + 1
    Except.ok (String.mk (zfillChars 3 (toString other_id).data),
      String.mk g.2)

-- ==============================================================================================
-- Specification-side definitions used in theorem statements
-- ==============================================================================================

/-- The partner-id arithmetic the spec describes: `id - 1` for an even
subject id, `id + 1` for an odd one. -/
def partnerId (n : ℕ) : ℤ :=
  if n % 2 = 0 then (n : ℤ) - 1 else (n : ℤ) + 1

/-- `needle` occurs contiguously inside `hay` (used to state what an error
message mentions). -/
def strOccurs (hay needle : String) : Prop :=
  ∃ a b : List Char, hay.data = a ++ needle.data ++ b

/-- Recursive reformulation of the tier-rendering walk of
`apply_min_ipu_and_render_full_tier` (proved equal to the `foldl` in
`render_foldl_eq`), used to reason by structural induction. -/
def renderIpu (ipu_label silence_label : String) (t_end : ℚ) :
    ℚ → List (ℚ × ℚ) → List Interval
  | cursor, [] =>
    if cursor < t_end then [⟨cursor, t_end, silence_label⟩] else []
  | cursor, p :: rest =>
    (if cursor < p.1 then [⟨cursor, p.1, silence_label⟩] else []) ++
      (⟨p.1, p.2, ipu_label⟩ :: renderIpu ipu_label silence_label t_end p.2 rest)

deriving instance DecidableEq for Except

-- ==============================================================================================
-- Window membership (claims C1, C2)
-- ==============================================================================================

/-- Membership in `_find_adjacent`'s candidate set, unfolded to the two
arithmetic bounds of the boolean mask. -/
theorem mem_match_candidates (tl : TimeLock) (m : ℚ) (row r : IpuRow)
    (ref : List IpuRow) :
    r ∈ match_candidates tl m row ref ↔
      r ∈ ref ∧ originCol tl row - m ≤ targetCol tl r ∧
        targetCol tl r < originCol tl row + m := by
  simp [match_candidates, List.mem_filter, inWindow, and_assoc]

/-- C1: for every anchor row with origin time `o` and every partner row,
the partner row is a match candidate iff its target time `t` satisfies
`o - margin_s ≤ t < o + margin_s` (closed below, open above), where the
origin is the anchor's `start` under `time_lock = onset` (its `end` under
`offset`) and the target is the partner's opposite field. -/
theorem C1_candidate_window (m : ℚ) (row r : IpuRow) (ref : List IpuRow) :
    (r ∈ match_candidates TimeLock.onset m row ref ↔
      r ∈ ref ∧ row.start - m ≤ r.«end» ∧ r.«end» < row.start + m) ∧
    (r ∈ match_candidates TimeLock.offset m row ref ↔
      r ∈ ref ∧ row.«end» - m ≤ r.start ∧ r.start < row.«end» + m) :=
  ⟨mem_match_candidates TimeLock.onset m row r ref,
    mem_match_candidates TimeLock.offset m row r ref⟩

/-- C2 counterexample: the claim says a partner row whose target time is
exactly `origin - margin_s` is excluded, but the code's mask
(`origin_t - margin_s <= target`) includes it.  Concretely: anchor with
`start = 1` under onset lock, margin `1`, partner with `end = 0 = 1 - 1`
is a candidate. -/
theorem C2_counterexample :
    (⟨-1, 0, "b", 5, 6, 7⟩ : IpuRow) ∈
      match_candidates TimeLock.onset 1 ⟨1, 2, "a", 1, 1, 1⟩
        [⟨-1, 0, "b", 5, 6, 7⟩] := by
  norm_num [match_candidates, inWindow, originCol, targetCol, List.filter]

/-- C2 amended: the window is closed at the lower bound and open at the
upper bound: a partner row with target exactly `origin - margin_s` is
included, a partner row with target `origin + margin_s - ε` (for
`0 < ε ≤ 2·margin_s`) is included, and a partner row with target exactly
`origin + margin_s` is excluded. -/
theorem C2_amended_window_bounds (tl : TimeLock) (m : ℚ) (row r : IpuRow)
    (ref : List IpuRow) (hm : 0 < m) (hr : r ∈ ref) :
    (targetCol tl r = originCol tl row - m → r ∈ match_candidates tl m row ref) ∧
    (∀ ε : ℚ, 0 < ε → ε ≤ 2 * m → targetCol tl r = originCol tl row + m - ε →
      r ∈ match_candidates tl m row ref) ∧
    (targetCol tl r = originCol tl row + m → r ∉ match_candidates tl m row ref) := by
  refine ⟨fun ht => ?_, fun ε hε1 hε2 ht => ?_, fun ht hmem => ?_⟩
  · exact (mem_match_candidates tl m row r ref).2 ⟨hr, by rw [ht], by rw [ht]; linarith⟩
  · exact (mem_match_candidates tl m row r ref).2 ⟨hr, by rw [ht]; linarith,
      by rw [ht]; linarith⟩
  · have h := (mem_match_candidates tl m row r ref).1 hmem
    rw [ht] at h
    linarith [h.2.2]

/-- C2 witness: concrete instantiation of the amended bounds at the closed
lower bound: anchor `start = 2`, margin `1`, partner `end = 1 = 2 - 1` is a
candidate. -/
theorem C2_amended_witness :
    (⟨0, 1, "b", 5, 6, 7⟩ : IpuRow) ∈
      match_candidates TimeLock.onset 1 ⟨2, 3, "a", 1, 1, 1⟩
        [⟨0, 1, "b", 5, 6, 7⟩] :=
  (C2_amended_window_bounds TimeLock.onset 1 ⟨2, 3, "a", 1, 1, 1⟩
      ⟨0, 1, "b", 5, 6, 7⟩ [⟨0, 1, "b", 5, 6, 7⟩] (by norm_num)
      (List.mem_singleton.2 rfl)).1 (by norm_num [targetCol, originCol])

-- ==============================================================================================
-- No-match fallback (claim C7)
-- ==============================================================================================

/-- C7: an anchor row with no partner candidate in the window is still
present in the alignment output (one output row per anchor row, in order),
and all its partner-derived cells — the three partner feature columns and
`latency` — are NaN (`none`). -/
theorem C7_no_match_fallback (tl : TimeLock) (m : ℚ) (base ref : List IpuRow) :
    (combine_annotations tl m base ref).length = base.length ∧
    (∀ row ∈ base, (row, find_adjacent tl m row ref) ∈
      combine_annotations tl m base ref) ∧
    (∀ row : IpuRow, match_candidates tl m row ref = [] →
      find_adjacent tl m row ref = ⟨none, none, none, none⟩) := by
  refine ⟨by simp [combine_annotations], fun row hrow => ?_, fun row hnone => ?_⟩
  · exact List.mem_map.2 ⟨row, hrow, rfl⟩
  · simp [find_adjacent, hnone, idxmin]

/-- C7 witness: a concrete anchor at time 10 with the only partner target at
0.6 and margin 0.1 has an empty candidate set, and its partner cells are all
NaN. -/
theorem C7_witness :
    find_adjacent TimeLock.onset (1/10) ⟨10, 21/2, "a", 1/2, 2, 4⟩
      [⟨1/10, 3/5, "b", 1/2, 2, 3⟩] = ⟨none, none, none, none⟩ :=
  (C7_no_match_fallback TimeLock.onset (1/10) [⟨10, 21/2, "a", 1/2, 2, 4⟩]
      [⟨1/10, 3/5, "b", 1/2, 2, 3⟩]).2.2 ⟨10, 21/2, "a", 1/2, 2, 4⟩
    (by norm_num [match_candidates, inWindow, originCol, targetCol, List.filter])

-- ==============================================================================================
-- Nearest-neighbour tie-break (claim C10)
-- ==============================================================================================

/-- The fold underlying `idxmin` returns the first minimizer: the list
containing the start element splits as `pre ++ result :: post` with every
element of `pre` strictly larger and every element of `post` at least as
large. -/
theorem foldl_pick_first_min (f : α → ℚ) :
    ∀ (xs : List α) (x : α),
      ∃ pre post,
        x :: xs = pre ++ (xs.foldl (fun best y => if f y < f best then y else best) x) :: post ∧
        (∀ z ∈ pre, f (xs.foldl (fun best y => if f y < f best then y else best) x) < f z) ∧
        (∀ z ∈ post, f (xs.foldl (fun best y => if f y < f best then y else best) x) ≤ f z) := by
  intro xs
  induction xs with
  | nil =>
    intro x
    exact ⟨[], [], rfl, by simp, by simp⟩
  | cons z rest ih =>
    intro x
    by_cases hz : f z < f x
    all_goals simp only [List.foldl_cons, hz, if_pos, if_neg, not_false_eq_true, if_true, if_false]
    · -- the new element strictly improves: the fold continues from z
      obtain ⟨pre, post, hsplit, hpre, hpost⟩ := ih z
      have hbest : f (rest.foldl (fun best y => if f y < f best then y else best) z) ≤ f z := by
        rcases pre with _ | ⟨p, pre'⟩
        · have hzz : z = rest.foldl (fun best y => if f y < f best then y else best) z := by
            simpa using congrArg (fun l => l.head?) hsplit
          exact le_of_eq (congrArg f hzz.symm)
        · have hzp : z = p := by simpa using congrArg (fun l => l.head?) hsplit
          exact le_of_lt (hzp ▸ hpre p (by simp))
      refine ⟨x :: pre, post, by rw [List.cons_append, ← hsplit], ?_, hpost⟩
      intro w hw
      rcases List.mem_cons.1 hw with hwx | hwp
      · exact hwx ▸ lt_of_le_of_lt hbest hz
      · exact hpre w hwp
    · -- the incumbent survives: the fold continues from x
      obtain ⟨pre, post, hsplit, hpre, hpost⟩ := ih x
      rcases pre with _ | ⟨p, pre'⟩
      · -- x itself is the first minimizer of x :: rest
        have hx : x = rest.foldl (fun best y => if f y < f best then y else best) x := by
          simpa using congrArg (fun l => l.head?) hsplit
        have hrest : rest = post := by simpa using congrArg List.tail hsplit
        refine ⟨[], z :: rest, by rw [List.nil_append, ← hx], by simp, ?_⟩
        intro w hw
        rcases List.mem_cons.1 hw with hwz | hwr
        · subst hwz
          exact le_trans (le_of_eq (congrArg f hx.symm)) (le_of_not_lt hz)
        · exact hpost w (hrest ▸ hwr)
      · have hxp : x = p := by simpa using congrArg (fun l => l.head?) hsplit
        have hrest : rest = pre' ++
            (rest.foldl (fun best y => if f y < f best then y else best) x) :: post := by
          simpa using congrArg List.tail hsplit
        refine ⟨x :: z :: pre', post, by rw [List.cons_append, List.cons_append, ← hrest], ?_, hpost⟩
        intro w hw
        have hfp : f (rest.foldl (fun best y => if f y < f best then y else best) x) < f x :=
          lt_of_lt_of_le (hpre p (by simp)) (le_of_eq (congrArg f hxp).symm)
        rcases List.mem_cons.1 hw with hwx | hw'
        · subst hwx
          exact hfp
        · rcases List.mem_cons.1 hw' with hwz | hwp
          · subst hwz
            exact lt_of_lt_of_le hfp (le_of_not_lt hz)
          · exact hpre w (by simp [hwp])

/-- C10: with two or more candidates at the same minimal `|origin - target|`
distance, `_find_adjacent` selects the candidate occurring earliest in the
partner table's row order: the candidate list splits as
`pre ++ best :: post` where the selected `best` supplies the output cells,
every candidate before it is strictly farther, and every candidate after it
is at least as far. -/
theorem C10_tie_break_first (tl : TimeLock) (m : ℚ) (row : IpuRow)
    (ref : List IpuRow) (h : match_candidates tl m row ref ≠ []) :
    ∃ best pre post,
      match_candidates tl m row ref = pre ++ best :: post ∧
      find_adjacent tl m row ref = ⟨some best.duration, some best.n_syllables,
        some best.rate, some (originCol tl row - targetCol tl best)⟩ ∧
      (∀ z ∈ pre, |originCol tl row - targetCol tl best| <
        |originCol tl row - targetCol tl z|) ∧
      (∀ z ∈ post, |originCol tl row - targetCol tl best| ≤
        |originCol tl row - targetCol tl z|) := by
  set f : IpuRow → ℚ := fun r => |originCol tl row - targetCol tl r| with hf
  obtain ⟨c, cs, hcs⟩ := List.exists_cons_of_ne_nil h
  obtain ⟨pre, post, hsplit, hpre, hpost⟩ := foldl_pick_first_min f cs c
  refine ⟨cs.foldl (fun best y => if f y < f best then y else best) c, pre, post,
    by rw [hcs]; exact hsplit, ?_, hpre, hpost⟩
  simp only [find_adjacent, hcs, idxmin, ← hf]

/-- C10 witness: anchor `start = 1` under onset lock with margin 1 and two
partner rows whose targets 0.5 and 1.5 are both at distance exactly 0.5;
the theorem applies and exhibits the selected first minimizer. -/
theorem C10_witness :
    ∃ best pre post,
      match_candidates TimeLock.onset 1 ⟨1, 2, "a", 1, 1, 1⟩
          [⟨0, 1/2, "x", 10, 11, 12⟩, ⟨0, 3/2, "y", 20, 21, 22⟩] = pre ++ best :: post ∧
      find_adjacent TimeLock.onset 1 ⟨1, 2, "a", 1, 1, 1⟩
          [⟨0, 1/2, "x", 10, 11, 12⟩, ⟨0, 3/2, "y", 20, 21, 22⟩]
        = ⟨some best.duration, some best.n_syllables, some best.rate,
            some (originCol TimeLock.onset ⟨1, 2, "a", 1, 1, 1⟩ - targetCol TimeLock.onset best)⟩ ∧
      (∀ z ∈ pre, |originCol TimeLock.onset ⟨1, 2, "a", 1, 1, 1⟩ - targetCol TimeLock.onset best| <
        |originCol TimeLock.onset ⟨1, 2, "a", 1, 1, 1⟩ - targetCol TimeLock.onset z|) ∧
      (∀ z ∈ post, |originCol TimeLock.onset ⟨1, 2, "a", 1, 1, 1⟩ - targetCol TimeLock.onset best| ≤
        |originCol TimeLock.onset ⟨1, 2, "a", 1, 1, 1⟩ - targetCol TimeLock.onset z|) :=
  C10_tie_break_first TimeLock.onset 1 ⟨1, 2, "a", 1, 1, 1⟩
    [⟨0, 1/2, "x", 10, 11, 12⟩, ⟨0, 3/2, "y", 20, 21, 22⟩]
    (by
      norm_num [match_candidates, inWindow, originCol, targetCol, List.filter]
      exact List.cons_ne_nil _ _)

-- ==============================================================================================
-- Event rounding (claim C4)
-- ==============================================================================================

/-- C4 counterexample: the claim says ties round away from zero, so a
timestamp of 0.5 s at 1 Hz with `first_samp = 5` should give sample
`0 + 1 + 5 = 6`; the code's `np.rint` (round-half-even) gives `0 + 5 = 5`. -/
theorem C4_counterexample :
    metadata_df_to_mne_events ["timestamp"] [some (1/2)] 1 5 "timestamp" 1
      = Except.ok [(5, 0, 1)] ∧ (5 : ℤ) ≠ 0 + 1 + 5 := by
  constructor
  · have h1 : rqint ((1:ℚ)/2 * 1) = 0 := by norm_num [rqint]
    have hf : (List.filterMap id [some ((1:ℚ)/2)]) = [1/2] := rfl
    simp only [metadata_df_to_mne_events, hf, List.contains_cons, beq_self_eq_true,
      Bool.true_or, if_true, List.map_cons, List.map_nil, h1]
    norm_num
  · decide

/-- C4 amended: for a finite timestamp the emitted sample index is
`rint(timestamp·sfreq) + first_samp` where `rint` rounds to the nearest
integer with ties to the nearest even integer (numpy's `np.rint`); the
emitted sample is within half a sample of the exact product, and when
`timestamp·sfreq = k + 1/2` the emitted sample is `k + first_samp` for even
`k` and `k + 1 + first_samp` for odd `k`. -/
theorem C4_amended_round_half_even :
    (∀ (t sfreq : ℚ) (fs eid : ℤ),
      metadata_df_to_mne_events ["timestamp"] [some t] sfreq fs "timestamp" eid
        = Except.ok [(rqint (t * sfreq) + fs, 0, eid)] ∧
      |t * sfreq - (rqint (t * sfreq) : ℚ)| ≤ 1 / 2) ∧
    (∀ (t sfreq : ℚ) (fs eid k : ℤ), t * sfreq = (k : ℚ) + 1 / 2 →
      metadata_df_to_mne_events ["timestamp"] [some t] sfreq fs "timestamp" eid
        = Except.ok [((if k % 2 = 0 then k else k + 1) + fs, 0, eid)]) := by
  have hev : ∀ (t sfreq : ℚ) (fs eid : ℤ),
      metadata_df_to_mne_events ["timestamp"] [some t] sfreq fs "timestamp" eid
        = Except.ok [(rqint (t * sfreq) + fs, 0, eid)] := by
    intro t sfreq fs eid
    have hf : (List.filterMap id [some t]) = [t] := rfl
    simp [metadata_df_to_mne_events, hf]
  have habs : ∀ q : ℚ, |q - (rqint q : ℚ)| ≤ 1 / 2 := by
    intro q
    have hfl : (⌊q⌋ : ℚ) ≤ q := Int.floor_le q
    have hfu : q < ⌊q⌋ + 1 := Int.lt_floor_add_one q
    unfold rqint
    split_ifs with h1 h2 h3 <;> rw [abs_le] <;> constructor <;> push_cast <;> linarith
  refine ⟨fun t sfreq fs eid => ⟨hev t sfreq fs eid, habs _⟩,
    fun t sfreq fs eid k hk => ?_⟩
  have hfloor : ⌊t * sfreq⌋ = k := by
    rw [Int.floor_eq_iff]
    constructor
    · rw [hk]; linarith
    · rw [hk]; linarith
  have h12 : t * sfreq - (k : ℚ) = 1 / 2 := by rw [hk]; ring
  have hr : rqint (t * sfreq) = if k % 2 = 0 then k else k + 1 := by
    unfold rqint
    rw [hfloor, h12]
    norm_num
  rw [hev t sfreq fs eid, hr]

/-- C4 witness: timestamp 1.5 s at 1 Hz is the tie `1 + 1/2` with odd
`k = 1`, so the emitted sample is `2`. -/
theorem C4_witness :
    metadata_df_to_mne_events ["timestamp"] [some (3/2)] 1 0 "timestamp" 7
      = Except.ok [(2, 0, 7)] := by
  have h := C4_amended_round_half_even.2 (3/2) 1 0 7 1 (by norm_num)
  simpa using h

-- ==============================================================================================
-- Missing-column error messages (claim C8)
-- ==============================================================================================

/-- C8 counterexample: the clean step's error message does not list the
columns actually present.  Two tables with the same missing column `rate`
but different present-column sets produce the identical message, which
names only the missing column. -/
theorem C8_counterexample :
    clean_and_prefix_ipu ["start", "end", "annotation", "duration", "n_syllables"] [] "self"
      = Except.error "self IPU table missing required columns: ['rate']" ∧
    clean_and_prefix_ipu ["start", "end", "annotation", "duration", "n_syllables", "extra"] [] "self"
      = Except.error "self IPU table missing required columns: ['rate']" := by
  constructor <;> decide

/-- Every member of a string list occurs inside its rendered `repr`. -/
theorem renderItems_occurs (c : String) : ∀ xs : List String, c ∈ xs →
    ∃ a b : List Char, (renderItems xs).data = a ++ c.data ++ b := by
  intro xs
  induction xs with
  | nil => intro h; cases h
  | cons x rest ih =>
    intro hmem
    rcases rest with _ | ⟨y, rest'⟩
    · have hcx : c = x := by simpa using hmem
      exact ⟨"'".data, "'".data, by
        simp only [renderItems, hcx, String.data_append, List.append_assoc]⟩
    · rcases List.mem_cons.1 hmem with hcx | hcr
      · exact ⟨"'".data, ("', " ++ renderItems (y :: rest')).data, by
          simp only [renderItems, hcx, String.data_append, List.append_assoc]⟩
      · obtain ⟨a, b, hab⟩ := ih hcr
        exact ⟨("'" ++ x ++ "', ").data ++ a, b, by
          simp only [renderItems, String.data_append, hab, List.append_assoc]⟩

/-- C8 amended: the events step's missing-column error names the missing
column and lists the full set of columns present; the clean step's error
names every missing column, but (per the counterexample) not the columns
present. -/
theorem C8_amended_error_contents :
    (∀ (cols : List String) (ts : List (Option ℚ)) (sf : ℚ) (fs eid : ℤ)
        (tcol e : String),
      metadata_df_to_mne_events cols ts sf fs tcol eid = Except.error e →
        strOccurs e tcol ∧ strOccurs e (renderStrList cols)) ∧
    (∀ (cols : List String) (rows : List IpuRow) (sp e : String),
      clean_and_prefix_ipu cols rows sp = Except.error e →
        ∀ c ∈ requiredColsSorted, cols.contains c = false → strOccurs e c) := by
  constructor
  · intro cols ts sf fs eid tcol e herr
    rw [metadata_df_to_mne_events] at herr
    by_cases hc : cols.contains tcol = true
    · rw [if_pos hc] at herr
      exact absurd herr (by simp)
    · rw [if_neg hc] at herr
      simp only [Except.error.injEq] at herr
      subst herr
      constructor
      · exact ⟨"metadata_df must contain column '".data,
          ("'. Found: " ++ renderStrList cols).data,
          by simp only [String.data_append, List.append_assoc]⟩
      · exact ⟨("metadata_df must contain column '" ++ tcol ++ "'. Found: ").data, [],
          by simp only [String.data_append, List.append_assoc, List.append_nil]⟩
  · intro cols rows sp e herr c hcreq hcnot
    rw [clean_and_prefix_ipu] at herr
    by_cases hm : (requiredColsSorted.filter (fun c => ¬ cols.contains c)).isEmpty = true
    · rw [if_pos hm] at herr
      exact absurd herr (by simp)
    · rw [if_neg hm] at herr
      simp only [Except.error.injEq] at herr
      subst herr
      have hcmem : c ∈ requiredColsSorted.filter (fun c => ¬ cols.contains c) :=
        List.mem_filter.2 ⟨hcreq, by simpa using hcnot⟩
      obtain ⟨a, b, hab⟩ := renderItems_occurs c _ hcmem
      refine ⟨(sp ++ " IPU table missing required columns: " ++ "[").data ++ a,
        b ++ "]".data, ?_⟩
      simp only [renderStrList, String.data_append, List.append_assoc]
      rw [hab]
      simp only [List.append_assoc]

/-- C8 witness: the events step on a table whose only column is `x` errors
with a message mentioning both the missing column name `timestamp` and the
rendered present-column list `['x']`. -/
theorem C8_witness :
    strOccurs "metadata_df must contain column 'timestamp'. Found: ['x']" "timestamp" ∧
    strOccurs "metadata_df must contain column 'timestamp'. Found: ['x']"
      (renderStrList ["x"]) := by
  have h := C8_amended_error_contents.1 ["x"] [] 1 0 1 "timestamp"
    "metadata_df must contain column 'timestamp'. Found: ['x']" (by decide)
  simpa using h

-- ==============================================================================================
-- Silence-gap merge: maximality and monotonicity (claims C5, C6)
-- ==============================================================================================

/-- `mergeAux` keeps the open run's start time at the head of its output. -/
theorem mergeAux_head (minSil : ℚ) :
    ∀ (l : List (ℚ × ℚ)) (cur : ℚ × ℚ),
      ∃ q rest2, mergeAux minSil cur l = (cur.1, q) :: rest2 := by
  intro l
  induction l with
  | nil => intro cur; exact ⟨cur.2, [], rfl⟩
  | cons p rest ih =>
    intro cur
    simp only [mergeAux]
    by_cases h : p.1 - cur.2 < minSil
    · rw [if_pos h]; exact ih (cur.1, max cur.2 p.2)
    · rw [if_neg h]; exact ⟨cur.2, mergeAux minSil p rest, rfl⟩

/-- Consecutive segments in `mergeAux` output are separated by a gap of at
least the silence threshold. -/
theorem mergeAux_gap_chain (minSil : ℚ) :
    ∀ (l : List (ℚ × ℚ)) (cur : ℚ × ℚ),
      List.Chain' (fun s t => minSil ≤ t.1 - s.2) (mergeAux minSil cur l) := by
  intro l
  induction l with
  | nil => intro cur; simp [mergeAux]
  | cons p rest ih =>
    intro cur
    simp only [mergeAux]
    by_cases h : p.1 - cur.2 < minSil
    · rw [if_pos h]; exact ih _
    · rw [if_neg h]
      obtain ⟨q, rest2, heq⟩ := mergeAux_head minSil rest p
      rw [heq]
      exact List.chain'_cons.2 ⟨by simpa using le_of_not_lt h, heq ▸ ih p⟩

/-- A list whose consecutive gaps all reach the threshold is untouched by
`mergeAux`. -/
theorem mergeAux_of_chain (minSil : ℚ) :
    ∀ (l : List (ℚ × ℚ)) (cur : ℚ × ℚ),
      List.Chain' (fun s t => minSil ≤ t.1 - s.2) (cur :: l) →
      mergeAux minSil cur l = cur :: l := by
  intro l
  induction l with
  | nil => intro cur _; rfl
  | cons p rest ih =>
    intro cur hch
    rcases List.chain'_cons.1 hch with ⟨hgap, hch2⟩
    simp only [mergeAux]
    rw [if_neg (not_lt.2 hgap), ih p hch2]

/-- The merge pass always yields threshold-respecting gaps. -/
theorem mergeSegments_gap_chain (minSil : ℚ) (l : List (ℚ × ℚ)) :
    List.Chain' (fun s t => minSil ≤ t.1 - s.2) (mergeSegments minSil l) := by
  cases l with
  | nil => simp [mergeSegments]
  | cons c rest => exact mergeAux_gap_chain minSil rest c

/-- The merge pass is the identity on threshold-respecting lists. -/
theorem mergeSegments_of_chain (minSil : ℚ) (l : List (ℚ × ℚ))
    (h : List.Chain' (fun s t => minSil ≤ t.1 - s.2) l) :
    mergeSegments minSil l = l := by
  cases l with
  | nil => rfl
  | cons c rest => exact mergeAux_of_chain minSil rest c h

/-- C5: every pair of consecutive segments produced by
`build_ipu_segments_from_tokens` is separated by a gap of at least
`min_silence_s`, so re-running the merge pass on the output with the same
threshold returns it unchanged. -/
theorem C5_merge_idempotent (tokens : List Interval) (il inz ifp : Bool)
    (ms : ℚ) (segs : List (ℚ × ℚ))
    (h : build_ipu_segments_from_tokens tokens il inz ifp ms = some segs) :
    List.Chain' (fun s t => ms ≤ t.1 - s.2) segs ∧
      mergeSegments ms segs = segs := by
  rw [build_ipu_segments_from_tokens] at h
  by_cases hms : ms < 0
  · rw [if_pos hms] at h; cases h
  · rw [if_neg hms] at h
    have hsegs := Option.some.inj h
    have hch : List.Chain' (fun s t => ms ≤ t.1 - s.2) segs :=
      hsegs ▸ mergeSegments_gap_chain ms _
    exact ⟨hch, mergeSegments_of_chain ms segs hch⟩

/-- C5 witness: tokens `a`, `#`, `b` over `[0, 1]` with threshold 0.2 merge
to the single run `(0, 1)`, on which the merge pass is the identity. -/
theorem C5_witness :
    List.Chain' (fun s t => (1:ℚ)/5 ≤ t.1 - s.2) [((0:ℚ), (1:ℚ))] ∧
      mergeSegments (1/5) [((0:ℚ), (1:ℚ))] = [((0:ℚ), (1:ℚ))] :=
  C5_merge_idempotent [⟨0, 1/2, "a"⟩, ⟨1/2, 3/5, "#"⟩, ⟨3/5, 1, "b"⟩]
    false false true (1/5) [(0, 1)] (by
      have ha : is_token_in_ipu "a" false false true = true := by decide
      have hh : is_token_in_ipu "#" false false true = false := by decide
      have hb : is_token_in_ipu "b" false false true = true := by decide
      norm_num [build_ipu_segments_from_tokens, buildRawSegments, rawStep,
        mergeSegments, mergeAux, ha, hh, hb, max_def])

/-- A larger threshold never yields more merged runs, whatever the open run
carried, as long as the run under the larger threshold extends at least as
far. -/
theorem mergeAux_length_mono (a b : ℚ) (hab : a ≤ b) :
    ∀ (l : List (ℚ × ℚ)) (ca cb : ℚ × ℚ), ca.2 ≤ cb.2 →
      (mergeAux b cb l).length ≤ (mergeAux a ca l).length := by
  intro l
  induction l with
  | nil => intro ca cb _; simp [mergeAux]
  | cons p rest ih =>
    intro ca cb hc
    simp only [mergeAux]
    by_cases hb2 : p.1 - cb.2 < b
    · rw [if_pos hb2]
      by_cases ha2 : p.1 - ca.2 < a
      · rw [if_pos ha2]
        exact ih _ _ (max_le_max hc (le_refl p.2))
      · rw [if_neg ha2, List.length_cons]
        exact le_trans (ih p (cb.1, max cb.2 p.2) (le_max_right _ _)) (Nat.le_succ _)
    · rw [if_neg hb2]
      have ha2 : ¬ p.1 - ca.2 < a := by
        have hgap := not_lt.1 hb2
        exact not_lt.2 (by linarith)
      rw [if_neg ha2, List.length_cons, List.length_cons]
      exact Nat.succ_le_succ (ih p p (le_refl _))

/-- C6: with the same tokens and inclusion flags, a larger silence threshold
never produces more runs than a smaller one. -/
theorem C6_min_silence_monotone (tokens : List Interval) (il inz ifp : Bool)
    (a b : ℚ) (la lb : List (ℚ × ℚ)) (hab : a ≤ b)
    (ha : build_ipu_segments_from_tokens tokens il inz ifp a = some la)
    (hb : build_ipu_segments_from_tokens tokens il inz ifp b = some lb) :
    lb.length ≤ la.length := by
  rw [build_ipu_segments_from_tokens] at ha hb
  by_cases ha0 : a < 0
  · rw [if_pos ha0] at ha; cases ha
  by_cases hb0 : b < 0
  · rw [if_pos hb0] at hb; cases hb
  rw [if_neg ha0] at ha
  rw [if_neg hb0] at hb
  have hla := Option.some.inj ha
  have hlb := Option.some.inj hb
  subst hla
  subst hlb
  cases buildRawSegments il inz ifp tokens with
  | nil => exact le_refl _
  | cons c rest => exact mergeAux_length_mono a b hab rest c c (le_refl _)

/-- C6 witness: with thresholds 0 and 0.2 on the same tokens, the larger
threshold yields one run and the smaller yields two. -/
theorem C6_witness :
    ([((0:ℚ), (1:ℚ))]).length ≤ ([((0:ℚ), (1:ℚ)/2), ((3:ℚ)/5, (1:ℚ))]).length :=
  C6_min_silence_monotone [⟨0, 1/2, "a"⟩, ⟨1/2, 3/5, "#"⟩, ⟨3/5, 1, "b"⟩]
    false false true 0 (1/5) [(0, 1/2), (3/5, 1)] [(0, 1)] (by norm_num)
    (by
      have ha : is_token_in_ipu "a" false false true = true := by decide
      have hh : is_token_in_ipu "#" false false true = false := by decide
      have hb : is_token_in_ipu "b" false false true = true := by decide
      norm_num [build_ipu_segments_from_tokens, buildRawSegments, rawStep,
        mergeSegments, mergeAux, ha, hh, hb, max_def])
    (by
      have ha : is_token_in_ipu "a" false false true = true := by decide
      have hh : is_token_in_ipu "#" false false true = false := by decide
      have hb : is_token_in_ipu "b" false false true = true := by decide
      norm_num [build_ipu_segments_from_tokens, buildRawSegments, rawStep,
        mergeSegments, mergeAux, ha, hh, hb, max_def])

-- ==============================================================================================
-- Partner-id inference (claim C9)
-- ==============================================================================================

/-- `takeWhile` over an append keeps exactly the first block when every
element of the block satisfies the predicate and the tail's head does not. -/
theorem takeWhile_append_of (p : Char → Bool) :
    ∀ xs : List Char, (∀ c ∈ xs, p c = true) →
    ∀ ys : List Char, (∀ c ∈ ys.head?, p c = false) →
      (xs ++ ys).takeWhile p = xs := by
  intro xs
  induction xs with
  | nil =>
    intro _ ys hys
    cases ys with
    | nil => rfl
    | cons y ys' =>
      have hf : p y = false := hys y (by simp)
      rw [List.nil_append, List.takeWhile_cons, if_neg (by simp [hf])]
  | cons x xs' ih =>
    intro hxs ys hys
    rw [List.cons_append, List.takeWhile_cons, if_pos (hxs x (by simp)),
      ih (fun c hc => hxs c (by simp [hc])) ys hys]

/-- `run-` cannot match at a position not starting with `r`. -/
theorem matchRunAt_of_ne (c : Char) (rest : List Char) (hc : ¬ c = 'r') :
    matchRunAt (c :: rest) = none := by
  rcases rest with _ | ⟨c2, rest⟩
  · rfl
  rcases rest with _ | ⟨c3, rest⟩
  · rfl
  rcases rest with _ | ⟨c4, rest⟩
  · rfl
  simp only [matchRunAt]
  rw [if_neg (fun h => hc h.1)]

/-- Scanning a digit block followed by a match-free tail finds no `run-`
match. -/
theorem lastRunMatch_digits_append :
    ∀ rds : List Char, (∀ c ∈ rds, c.isDigit = true) →
    ∀ tail : List Char, lastRunMatch tail = none →
      lastRunMatch (rds ++ tail) = none := by
  intro rds
  induction rds with
  | nil => intro _ tail ht; simpa using ht
  | cons c rest ih =>
    intro hd tail ht
    have hcd := hd c (by simp)
    have hcn : ¬ c = '\n' := fun he => by rw [he] at hcd; exact absurd hcd (by decide)
    have hcr : ¬ c = 'r' := fun he => by rw [he] at hcd; exact absurd hcd (by decide)
    rw [List.cons_append, lastRunMatch, if_neg hcn,
      ih (fun x hx => hd x (by simp [hx])) tail ht]
    exact matchRunAt_of_ne c (rest ++ tail) hcr

/-- At a `run-` position followed by a nonempty digit block, a non-digit
continuation, and a tail with no further match, the greedy capture is
exactly the digit block. -/
theorem lastRunMatch_at_run (rds suffix : List Char) (hne : ¬ rds = [])
    (hd : ∀ c ∈ rds, c.isDigit = true)
    (hsufhead : ∀ c ∈ suffix.head?, c.isDigit = false)
    (hsuf : lastRunMatch suffix = none) :
    lastRunMatch ('r' :: 'u' :: 'n' :: '-' :: (rds ++ suffix)) = some rds := by
  have hds : lastRunMatch (rds ++ suffix) = none :=
    lastRunMatch_digits_append rds hd suffix hsuf
  have h4 : matchRunAt ('r' :: 'u' :: 'n' :: '-' :: (rds ++ suffix)) = some rds := by
    rw [matchRunAt, if_pos (by simp),
      takeWhile_append_of Char.isDigit rds hd suffix hsufhead,
      if_neg (by simpa [List.isEmpty_iff] using hne)]
  have hh : lastRunMatch ('-' :: (rds ++ suffix)) = none := by
    rw [lastRunMatch, if_neg (by decide : ¬ '-' = '\n'), hds]
    exact matchRunAt_of_ne '-' _ (by decide)
  have hn : lastRunMatch ('n' :: '-' :: (rds ++ suffix)) = none := by
    rw [lastRunMatch, if_neg (by decide : ¬ 'n' = '\n'), hh]
    exact matchRunAt_of_ne 'n' _ (by decide)
  have hu : lastRunMatch ('u' :: 'n' :: '-' :: (rds ++ suffix)) = none := by
    rw [lastRunMatch, if_neg (by decide : ¬ 'u' = '\n'), hn]
    exact matchRunAt_of_ne 'u' _ (by decide)
  rw [lastRunMatch, if_neg (by decide : ¬ 'r' = '\n'), hu]
  exact h4

/-- A newline-free middle section propagates a later `run-` match: the scan
prefers the deeper (later, i.e. regex-greedy) match. -/
theorem lastRunMatch_append_of_some (ds : List Char) :
    ∀ mid tail : List Char, '\n' ∉ mid → lastRunMatch tail = some ds →
      lastRunMatch (mid ++ tail) = some ds := by
  intro mid
  induction mid with
  | nil => intro tail _ h; simpa using h
  | cons c rest ih =>
    intro tail hnl h
    have hcn : ¬ c = '\n' := fun he => hnl (by simp [he])
    rw [List.cons_append, lastRunMatch, if_neg hcn,
      ih tail (fun hm => hnl (by simp [hm])) h]

/-- The full pattern matches at the head of a decomposed stem
`sub-` `DDD` `mid` `run-` `digits` `suffix`, capturing the three id digits
and the digit block after the last `run-`. -/
theorem matchSubAt_canonical (d1 d2 d3 : Char) (mid rds suffix : List Char)
    (h1 : d1.isDigit = true) (h2 : d2.isDigit = true) (h3 : d3.isDigit = true)
    (hne : ¬ rds = []) (hdig : ∀ c ∈ rds, c.isDigit = true)
    (hmid : '\n' ∉ mid)
    (hsufhead : ∀ c ∈ suffix.head?, c.isDigit = false)
    (hsuf : lastRunMatch suffix = none) :
    matchSubAt ('s' :: 'u' :: 'b' :: '-' :: d1 :: d2 :: d3 ::
        (mid ++ 'r' :: 'u' :: 'n' :: '-' :: (rds ++ suffix)))
      = some ([d1, d2, d3], rds) := by
  rw [matchSubAt, if_pos (by simp [h1, h2, h3]),
    lastRunMatch_append_of_some rds mid _ hmid
      (lastRunMatch_at_run rds suffix hne hdig hsufhead hsuf)]

/-- C9: whenever the stem matches the default pattern
`sub-(\d{3}).*run-(\d+)` — with captured subject-id digits `ids` and run
digits `rds` — partner inference returns the id mapped by the even/odd rule
(`id - 1` for even, `id + 1` for odd), zero-padded to the input id's width 3,
with the run digits unchanged; whenever the stem does not match, it fails
with the not-found error.  The third part instantiates the match semantics:
any stem decomposing as `sub-DDD<mid>run-<digits><suffix>` (newline-free
`mid`, suffix not continuing the digits and containing no later `run-`
match) is covered, which includes the repository's documented filenames
such as `sub-001_run-3_ipu` and `sub-001_task-conversation_run-3_ipu`. -/
theorem C9_partner_inference :
    (∀ (stem : String) (ids rds : List Char),
      searchPattern stem.data = some (ids, rds) →
      infer_partner_id_and_run stem
        = Except.ok (String.mk (zfillChars 3
            (toString (partnerId (digitsVal ids))).data), String.mk rds)) ∧
    (∀ stem : String, searchPattern stem.data = none →
      ∃ e, infer_partner_id_and_run stem = Except.error e) ∧
    (∀ (stem : String) (d1 d2 d3 : Char) (mid rds suffix : List Char),
      stem.data = 's' :: 'u' :: 'b' :: '-' :: d1 :: d2 :: d3 ::
        (mid ++ 'r' :: 'u' :: 'n' :: '-' :: (rds ++ suffix)) →
      d1.isDigit = true → d2.isDigit = true → d3.isDigit = true →
      ¬ rds = [] → (∀ c ∈ rds, c.isDigit = true) →
      '\n' ∉ mid → (∀ c ∈ suffix.head?, c.isDigit = false) →
      lastRunMatch suffix = none →
      infer_partner_id_and_run stem
        = Except.ok (String.mk (zfillChars 3
            (toString (partnerId (digitsVal [d1, d2, d3]))).data), String.mk rds)) := by
  have hmain : ∀ (stem : String) (ids rds : List Char),
      searchPattern stem.data = some (ids, rds) →
      infer_partner_id_and_run stem
        = Except.ok (String.mk (zfillChars 3
            (toString (partnerId (digitsVal ids))).data), String.mk rds) := by
    intro stem ids rds hs
    simp only [infer_partner_id_and_run, hs]
    have hid : (if ((digitsVal ids : ℤ)) % 2 = 0
          then (digitsVal ids : ℤ) - 1 else (digitsVal ids : ℤ) + 1)
        = partnerId (digitsVal ids) := by
      rw [partnerId]
      by_cases hpar : digitsVal ids % 2 = 0
      · rw [if_pos hpar, if_pos (by omega)]
      · rw [if_neg hpar, if_neg (by omega)]
    rw [hid]
  refine ⟨hmain, fun stem hn => ?_, ?_⟩
  · rw [infer_partner_id_and_run, hn]
    exact ⟨_, rfl⟩
  · intro stem d1 d2 d3 mid rds suffix hdata h1 h2 h3 hne hdig hmid hsufhead hsuf
    apply hmain
    rw [hdata, searchPattern,
      matchSubAt_canonical d1 d2 d3 mid rds suffix h1 h2 h3 hne hdig hmid hsufhead hsuf]

/-- C9 witness: the documented filename stems — `sub-001_run-3_ipu` via the
decomposition part and `sub-001_task-conversation_run-12_ipu` via the
general matching part — both infer partner `002` with their run numbers
preserved, and the non-matching stem `bad-name` errors. -/
theorem C9_witness :
    infer_partner_id_and_run "sub-001_run-3_ipu" = Except.ok ("002", "3") ∧
    infer_partner_id_and_run "sub-001_task-conversation_run-12_ipu"
      = Except.ok ("002", "12") ∧
    ∃ e, infer_partner_id_and_run "bad-name" = Except.error e := by
  refine ⟨?_, ?_, C9_partner_inference.2.1 "bad-name" (by decide)⟩
  · have h := C9_partner_inference.2.2 "sub-001_run-3_ipu" '0' '0' '1' ['_'] ['3']
      ['_', 'i', 'p', 'u'] (by decide) (by decide) (by decide) (by decide)
      (by decide) (by decide) (by decide) (by decide) (by decide)
    rw [h]
    decide
  · have h := C9_partner_inference.1 "sub-001_task-conversation_run-12_ipu"
      ['0', '0', '1'] ['1', '2'] (by decide)
    rw [h]
    decide

-- ==============================================================================================
-- Tier rendering invariants (claim C3)
-- ==============================================================================================

/-- The rendering `foldl` of `apply_min_ipu_and_render_full_tier`, together
with its trailing-silence step, equals the recursive `renderIpu`. -/
theorem render_foldl_eq (iL sL : String) (t_end : ℚ) :
    ∀ (kept : List (ℚ × ℚ)) (out : List Interval) (cursor : ℚ),
      (if (kept.foldl (renderStep iL sL) (out, cursor)).2 < t_end
        then (kept.foldl (renderStep iL sL) (out, cursor)).1
          ++ [⟨(kept.foldl (renderStep iL sL) (out, cursor)).2, t_end, sL⟩]
        else (kept.foldl (renderStep iL sL) (out, cursor)).1)
      = out ++ renderIpu iL sL t_end cursor kept := by
  intro kept
  induction kept with
  | nil =>
    intro out cursor
    simp only [List.foldl_nil, renderIpu]
    by_cases h : cursor < t_end
    · rw [if_pos h, if_pos h]
    · rw [if_neg h, if_neg h, List.append_nil]
  | cons p rest ih =>
    intro out cursor
    simp only [List.foldl_cons, renderStep]
    rw [ih]
    simp only [renderIpu]
    by_cases h : cursor < p.1
    · rw [if_pos h, if_pos h]
      simp [List.append_assoc]
    · rw [if_neg h, if_neg h]
      simp [List.append_assoc]

/-- Transport pairwise relations through `filterMap`. -/
theorem pairwise_filterMap_of {α β : Type} {R : α → α → Prop} {S : β → β → Prop}
    (f : α → Option β)
    (H : ∀ a a', R a a' → ∀ b, f a = some b → ∀ b', f a' = some b' → S b b') :
    ∀ {l : List α}, List.Pairwise R l → List.Pairwise S (l.filterMap f) := by
  intro l
  induction l with
  | nil => intro _; simp
  | cons a l ih =>
    intro hp
    obtain ⟨ha, hp2⟩ := List.pairwise_cons.1 hp
    rw [List.filterMap_cons]
    cases hfa : f a with
    | none => exact ih hp2
    | some b =>
      refine List.pairwise_cons.2 ⟨fun b' hb' => ?_, ih hp2⟩
      obtain ⟨a', ha', hfa'⟩ := List.mem_filterMap.1 hb'
      exact H a a' (ha a' ha') b hfa b' hfa'

/-- What a surviving clamped segment looks like. -/
theorem clampSeg_eq_some (ts te mi : ℚ) (p q : ℚ × ℚ)
    (h : clampSeg ts te mi p = some q) :
    q = (max ts p.1, min te p.2) := by
  rw [clampSeg] at h
  split_ifs at h
  all_goals simp_all

/-- Invariants of the recursive rendering walk: over a positive, clamped,
ordered, pairwise-disjoint segment list the output intervals are strictly
positive, adjacent intervals share their boundary, the first starts at the
cursor, the last ends at `t_end`, and the output is empty only when the
cursor already sits at `t_end`. -/
theorem renderIpu_spec (iL sL : String) (t_end : ℚ) :
    ∀ (l : List (ℚ × ℚ)) (cursor : ℚ),
      cursor ≤ t_end →
      (∀ p ∈ l, p.1 < p.2 ∧ p.2 ≤ t_end) →
      (∀ p ∈ l.head?, cursor ≤ p.1) →
      List.Chain' (fun s t => s.2 ≤ t.1) l →
      (∀ itv ∈ renderIpu iL sL t_end cursor l, itv.start < itv.«end») ∧
      List.Chain' (fun a b => a.«end» = b.start) (renderIpu iL sL t_end cursor l) ∧
      (∀ itv ∈ (renderIpu iL sL t_end cursor l).head?, itv.start = cursor) ∧
      (∀ itv ∈ (renderIpu iL sL t_end cursor l).getLast?, itv.«end» = t_end) ∧
      (renderIpu iL sL t_end cursor l = [] → cursor = t_end) := by
  intro l
  induction l with
  | nil =>
    intro cursor hct _ _ _
    by_cases h : cursor < t_end
    · simp only [renderIpu, if_pos h]
      exact ⟨by simpa using h, by simp, by simp, by simp, by simp⟩
    · simp only [renderIpu, if_neg h]
      exact ⟨by simp, by simp, by simp, by simp,
        fun _ => le_antisymm hct (not_lt.1 h)⟩
  | cons p rest ih =>
    intro cursor hct hall hhead hch
    obtain ⟨hps, hpe⟩ := hall p (by simp)
    have hcp : cursor ≤ p.1 := hhead p (by simp)
    obtain ⟨hhead2, hch2⟩ := List.chain'_cons'.1 hch
    obtain ⟨ihpos, ihch, ihhd, ihlast, ihemp⟩ :=
      ih p.2 hpe (fun q hq => hall q (by simp [hq])) hhead2 hch2
    by_cases hc : cursor < p.1
    · simp only [renderIpu, if_pos hc, List.singleton_append]
      refine ⟨?_, ?_, ?_, ?_, by simp⟩
      · intro itv hitv
        rcases List.mem_cons.1 hitv with h1 | hitv
        · subst h1; exact hc
        rcases List.mem_cons.1 hitv with h2 | hitv
        · subst h2; exact hps
        · exact ihpos itv hitv
      · refine List.chain'_cons.2 ⟨rfl, List.chain'_cons'.2 ⟨?_, ihch⟩⟩
        intro itv hitv
        exact (ihhd itv hitv).symm
      · simp
      · intro itv hitv
        rcases hR : renderIpu iL sL t_end p.2 rest with _ | ⟨r0, R'⟩
        · rw [hR, List.getLast?_cons_cons, List.getLast?_singleton] at hitv
          simp only [Option.mem_def, Option.some.injEq] at hitv
          subst hitv
          exact ihemp hR
        · rw [hR, List.getLast?_cons_cons, List.getLast?_cons_cons] at hitv
          exact ihlast itv (by rw [hR]; exact hitv)
    · have hpc : p.1 = cursor := le_antisymm (not_lt.1 hc) hcp
      simp only [renderIpu, if_neg hc, List.nil_append]
      refine ⟨?_, ?_, ?_, ?_, by simp⟩
      · intro itv hitv
        rcases List.mem_cons.1 hitv with h1 | hitv
        · subst h1; exact hps
        · exact ihpos itv hitv
      · refine List.chain'_cons'.2 ⟨?_, ihch⟩
        intro itv hitv
        exact (ihhd itv hitv).symm
      · simp [hpc]
      · intro itv hitv
        rcases hR : renderIpu iL sL t_end p.2 rest with _ | ⟨r0, R'⟩
        · rw [hR, List.getLast?_singleton] at hitv
          simp only [Option.mem_def, Option.some.injEq] at hitv
          subst hitv
          exact ihemp hR
        · rw [hR, List.getLast?_cons_cons] at hitv
          exact ihlast itv (by rw [hR]; exact hitv)

/-- C3 counterexample: the claim quantifies over any time-ordered segment
list, but for the time-ordered yet overlapping list `[(0, 2), (1, 3)]` the
rendered tier violates the adjacency invariant `tier[i].end =
tier[i+1].start` (and hence non-overlap): the tier is
`[(0, 2, IPU), (1, 3, IPU), (3, 4, #)]`. -/
theorem C3_counterexample :
    apply_min_ipu_and_render_full_tier 0 4 [(0, 2), (1, 3)] 0 "IPU" "#"
      = some [⟨0, 2, "IPU"⟩, ⟨1, 3, "IPU"⟩, ⟨3, 4, "#"⟩] ∧
    ¬ List.Chain' (fun a b => a.«end» = b.start)
        [(⟨0, 2, "IPU"⟩ : Interval), ⟨1, 3, "IPU"⟩, ⟨3, 4, "#"⟩] := by
  constructor
  · norm_num [apply_min_ipu_and_render_full_tier, clampSeg, renderStep,
      List.filterMap, List.filter, max_def, min_def]
  · intro h
    have h2 := (List.chain'_cons.1 h).1
    have : (2 : ℚ) = 1 := h2
    norm_num at this

/-- C3 amended: for `t_start ≤ t_end`, `min_ipu_s ≥ 0` and a segment list
that is time-ordered and pairwise non-overlapping (every earlier segment
ends no later than any later one starts), the rendered tier consists of
strictly positive intervals, adjacent intervals satisfy
`tier[i].end = tier[i+1].start`, the first interval starts at `t_start`,
the last ends at `t_end`, and the tier is empty only when
`t_start = t_end` — so the tier covers `[t_start, t_end]` with no gaps or
overlaps. -/
theorem C3_amended_tier_coverage (t_start t_end min_ipu : ℚ)
    (segs : List (ℚ × ℚ)) (tier : List Interval) (iL sL : String)
    (hts : t_start ≤ t_end) (hmi : 0 ≤ min_ipu)
    (hdisj : List.Pairwise (fun s t => s.2 ≤ t.1) segs)
    (heq : apply_min_ipu_and_render_full_tier t_start t_end segs min_ipu iL sL
      = some tier) :
    (∀ itv ∈ tier, itv.start < itv.«end») ∧
    List.Chain' (fun a b => a.«end» = b.start) tier ∧
    (∀ itv ∈ tier.head?, itv.start = t_start) ∧
    (∀ itv ∈ tier.getLast?, itv.«end» = t_end) ∧
    (tier = [] → t_start = t_end) := by
  simp only [apply_min_ipu_and_render_full_tier] at heq
  rw [if_neg (not_lt.2 hts), if_neg (not_lt.2 hmi)] at heq
  have htier := (Option.some.inj heq).symm
  rw [render_foldl_eq iL sL t_end _ [] t_start, List.nil_append] at htier
  -- facts about the kept clamped segments
  have hbounds : ∀ p ∈ (segs.filterMap
      (clampSeg t_start t_end min_ipu)).filter (fun p => p.1 < p.2),
      t_start ≤ p.1 ∧ p.2 ≤ t_end := by
    intro p hp
    obtain ⟨a, _, hfa⟩ := List.mem_filterMap.1 (List.mem_of_mem_filter hp)
    rw [clampSeg_eq_some t_start t_end min_ipu a p hfa]
    exact ⟨le_max_left _ _, min_le_left _ _⟩
  have hall : ∀ p ∈ (segs.filterMap
      (clampSeg t_start t_end min_ipu)).filter (fun p => p.1 < p.2),
      p.1 < p.2 ∧ p.2 ≤ t_end := by
    intro p hp
    refine ⟨by simpa using (List.mem_filter.1 hp).2, (hbounds p hp).2⟩
  have hpair : List.Pairwise (fun s t : ℚ × ℚ => s.2 ≤ t.1)
      ((segs.filterMap (clampSeg t_start t_end min_ipu)).filter
        (fun p => p.1 < p.2)) := by
    refine List.Pairwise.filter _ (pairwise_filterMap_of _ ?_ hdisj)
    intro a a' hR b hb b' hb'
    rw [clampSeg_eq_some t_start t_end min_ipu a b hb,
      clampSeg_eq_some t_start t_end min_ipu a' b' hb']
    exact le_trans (min_le_right _ _) (le_trans hR (le_max_right _ _))
  obtain ⟨hpos, hch, hhd, hlast, hemp⟩ :=
    renderIpu_spec iL sL t_end
      ((segs.filterMap (clampSeg t_start t_end min_ipu)).filter
        (fun p => p.1 < p.2)) t_start hts hall
      (fun p hp => (hbounds p (List.mem_of_mem_head? hp)).1)
      (List.Pairwise.chain' hpair)
  have hfself : (renderIpu iL sL t_end t_start
      ((segs.filterMap (clampSeg t_start t_end min_ipu)).filter
        (fun p => p.1 < p.2))).filter (fun itv => itv.start < itv.«end»)
      = renderIpu iL sL t_end t_start
        ((segs.filterMap (clampSeg t_start t_end min_ipu)).filter
          (fun p => p.1 < p.2)) := by
    rw [List.filter_eq_self]
    intro itv hitv
    simpa using hpos itv hitv
  rw [hfself] at htier
  subst htier
  exact ⟨hpos, hch, hhd, hlast, hemp⟩

/-- C3 witness: over `[0, 2]` with the disjoint segments
`[(0.5, 1), (1.5, 1.52)]` and minimum duration 0.05, the short second
segment is dropped and the rendered tier is
`[(0, 0.5, #), (0.5, 1, IPU), (1, 2, #)]`, which satisfies all the
invariants. -/
theorem C3_witness :
    (∀ itv ∈ [(⟨0, 1/2, "#"⟩ : Interval), ⟨1/2, 1, "IPU"⟩, ⟨1, 2, "#"⟩],
      itv.start < itv.«end») ∧
    List.Chain' (fun a b => a.«end» = b.start)
      [(⟨0, 1/2, "#"⟩ : Interval), ⟨1/2, 1, "IPU"⟩, ⟨1, 2, "#"⟩] ∧
    (∀ itv ∈ ([(⟨0, 1/2, "#"⟩ : Interval), ⟨1/2, 1, "IPU"⟩, ⟨1, 2, "#"⟩]).head?,
      itv.start = 0) ∧
    (∀ itv ∈ ([(⟨0, 1/2, "#"⟩ : Interval), ⟨1/2, 1, "IPU"⟩, ⟨1, 2, "#"⟩]).getLast?,
      itv.«end» = 2) ∧
    (([(⟨0, 1/2, "#"⟩ : Interval), ⟨1/2, 1, "IPU"⟩, ⟨1, 2, "#"⟩] : List Interval)
      = [] → (0 : ℚ) = 2) :=
  C3_amended_tier_coverage 0 2 (1/20) [(1/2, 1), (3/2, 38/25)]
    [⟨0, 1/2, "#"⟩, ⟨1/2, 1, "IPU"⟩, ⟨1, 2, "#"⟩] "IPU" "#"
    (by norm_num) (by norm_num)
    (by norm_num [List.pairwise_cons])
    (by norm_num [apply_min_ipu_and_render_full_tier, clampSeg, renderStep,
      List.filterMap, List.filter, max_def, min_def])

end Hyper
